import Mathlib

/-!
Shallow embedding of the standup-report event acquisition pipeline.

The embedding follows the Go sources:
* `report`  — internal/report: the unified `Event` schema and its category
  constants.
* `github`  — internal/github: the GitHub adapter (`FetchEvents`,
  `parseEvent`, `firstLine`, the CI-failure and pending-review fetchers).
* `gitlab`  — internal/gitlab: the GitLab adapter (`FetchEvents`,
  `parseEvent`, `resolveProject` with its project cache, the CI-failure and
  pending-review fetchers).
* `cmd`     — cmd: the aggregator `run` that fans out to both adapters.

Network interaction is modelled by passing the decoded responses explicitly:
a `net` structure holds, for every endpoint the adapter consults, either the
decoded body (`Except.ok`) or a failure (`Except.error ()`), the latter
covering transport errors, non-200 statuses and body-decode errors alike,
since the Go code turns each of those into the same control flow at every
call site.  Timestamps (`time.Time`) are modelled as `Nat`, with `0` playing
the role of Go's zero `time.Time`; `t.Before u` is `t < u` and `t.After u`
is `u < t`.  Go maps that the code iterates are modelled as lists in
insertion order; every property proved below is insensitive to that order.
The two phase-2 goroutines append their results in nondeterministic order in
Go; the embedding fixes CI-failures first, pending reviews second, and all
proved properties are insensitive to this choice as well.
-/

namespace report

/-- EventCategory constants from internal/report (Go: typed string consts). -/
def CategoryCommit : String := "Commits"

def CategoryPR : String := "Pull Requests / Merge Requests"

def CategoryReview : String := "Code Reviews"

def CategoryReviewComment : String := "Review Comments"

def CategoryIssue : String := "Issues"

def CategoryComment : String := "Comments"

def CategoryPipeline : String := "CI Pipeline Failures"

def CategoryPendingReview : String := "Pending Reviews"

/-- The closed enumeration of the eight event categories. -/
def allCategories : List String :=
  [CategoryCommit, CategoryPR, CategoryReview, CategoryReviewComment,
   CategoryIssue, CategoryComment, CategoryPipeline, CategoryPendingReview]

/-- The unified event schema (Go struct `report.Event`).  Fields that Go
leaves at their zero value when a branch does not set them default to `""`. -/
structure Event where
  category : String
  action : String
  title : String
  url : String := ""
  repo : String
  source : String
  createdAt : Nat
deriving DecidableEq, Repr

end report

namespace github

structure commit where
  sha : String := ""
  message : String
deriving DecidableEq, Repr

structure pushPayload where
  size : Nat := 0
  commits : List commit
deriving DecidableEq, Repr

structure pullRequest where
  number : Nat
  title : String
  htmlURL : String := ""
  merged : Bool := false
deriving DecidableEq, Repr

structure prPayload where
  action : String
  pullRequest : pullRequest
deriving DecidableEq, Repr

structure review where
  state : String
  htmlURL : String := ""
deriving DecidableEq, Repr

structure prReviewPayload where
  action : String := ""
  review : review
  pullRequest : pullRequest
deriving DecidableEq, Repr

structure reviewComment where
  htmlURL : String := ""
deriving DecidableEq, Repr

structure prReviewCommentPayload where
  action : String := ""
  comment : reviewComment
  pullRequest : pullRequest
deriving DecidableEq, Repr

structure issue where
  number : Nat
  title : String
  htmlURL : String := ""
deriving DecidableEq, Repr

structure issuesPayload where
  action : String
  issue : issue
deriving DecidableEq, Repr

structure comment where
  htmlURL : String := ""
deriving DecidableEq, Repr

structure issueCommentPayload where
  action : String := ""
  issue : issue
  comment : comment
deriving DecidableEq, Repr

/-- The decode result of a raw event's `payload` bytes for the target type
selected by the event's `type` string.  `invalid` models a
`json.Unmarshal` failure (Go then returns no events for the record). -/
inductive Payload where
  | invalid
  | push (p : pushPayload)
  | pr (p : prPayload)
  | prReview (p : prReviewPayload)
  | prReviewComment (p : prReviewCommentPayload)
  | issues (p : issuesPayload)
  | issueComment (p : issueCommentPayload)
deriving DecidableEq, Repr

/-- Raw GitHub activity-feed record (Go struct `github.event`). -/
structure event where
  typ : String
  repoName : String
  payload : Payload
  createdAt : Nat
deriving DecidableEq, Repr

structure workflowRun where
  name : String
  headBranch : String
  htmlURL : String := ""
  createdAt : Nat
deriving DecidableEq, Repr

structure searchIssue where
  number : Nat
  title : String
  htmlURL : String := ""
  repositoryURL : String := ""
  createdAt : Nat
deriving DecidableEq, Repr

/-- Decoded responses for every GitHub endpoint the adapter consults.
`Except.error ()` covers transport failure, a non-200 status, and a
body-decode failure, which the Go code treats identically at each site. -/
structure net where
  userResp : Except Unit String
  pageResp : Nat → Except Unit (List event)
  ciResp : String → Except Unit (List workflowRun)
  reviewResp : Except Unit (List searchIssue)

/-- Go `firstLine`: the prefix of `s` up to (excluding) the first newline,
or all of `s` when it has none.  The Go loop scans bytes; since a newline
byte never occurs inside a multi-byte UTF-8 character, scanning characters
is equivalent. -/
def firstLine (s : String) : String :=
  String.mk (s.toList.takeWhile (fun c => c != '\n'))

/-- Go `parseEvent`: classify one raw record into zero or more Events.
A record whose type string is not in the mapping table, or whose payload
failed to decode, yields no events. -/
def parseEvent (e : event) : List report.Event :=
  match e.typ, e.payload with
  | "PushEvent", .push p =>
      p.commits.map (fun c =>
        { category := report.CategoryCommit
          action := "pushed"
          title := firstLine c.message
          repo := e.repoName
          source := "github"
          createdAt := e.createdAt })
  | "PullRequestEvent", .pr p =>
      let action := if p.action = "closed" && p.pullRequest.merged then "merged" else p.action
      [{ category := report.CategoryPR
         action := action
         title := "#" ++ toString p.pullRequest.number ++ " " ++ p.pullRequest.title
         url := p.pullRequest.htmlURL
         repo := e.repoName
         source := "github"
         createdAt := e.createdAt }]
  | "PullRequestReviewEvent", .prReview p =>
      [{ category := report.CategoryReview
         action := p.review.state
         title := "#" ++ toString p.pullRequest.number ++ " " ++ p.pullRequest.title
         url := p.review.htmlURL
         repo := e.repoName
         source := "github"
         createdAt := e.createdAt }]
  | "PullRequestReviewCommentEvent", .prReviewComment p =>
      [{ category := report.CategoryReviewComment
         action := "commented"
         title := "#" ++ toString p.pullRequest.number ++ " " ++ p.pullRequest.title
         url := p.comment.htmlURL
         repo := e.repoName
         source := "github"
         createdAt := e.createdAt }]
  | "IssuesEvent", .issues p =>
      [{ category := report.CategoryIssue
         action := p.action
         title := "#" ++ toString p.issue.number ++ " " ++ p.issue.title
         url := p.issue.htmlURL
         repo := e.repoName
         source := "github"
         createdAt := e.createdAt }]
  | "IssueCommentEvent", .issueComment p =>
      [{ category := report.CategoryComment
         action := "commented"
         title := "#" ++ toString p.issue.number ++ " " ++ p.issue.title
         url := p.comment.htmlURL
         repo := e.repoName
         source := "github"
         createdAt := e.createdAt }]
  | _, _ => []

/-- Go `repos[name] = struct{}{}`: set insertion, modelled in first-insertion
order. -/
def insertName (l : List String) (s : String) : List String :=
  if s ∈ l then l else l ++ [s]

/-- The record loop inside a page (Go: `for _, e := range ghEvents`).
Returns the accumulated events, the touched-repo set, and whether a record
with `CreatedAt.Before(since)` was hit (Go: `goto phase2`), which abandons
the rest of the page and all further pages. -/
def processRecords (since untilT : Nat) :
    List event → List report.Event → List String →
    List report.Event × List String × Bool
  | [], evs, repos => (evs, repos, false)
  | e :: rest, evs, repos =>
    if e.createdAt < since then (evs, repos, true)
    else if untilT < e.createdAt then processRecords since untilT rest evs repos
    else processRecords since untilT rest (evs ++ parseEvent e) (insertName repos e.repoName)

/-- The page loop (Go: `for page := 1; page <= 10; page++`), with the
remaining page budget as fuel.  A failed page aborts the whole fetch; an
empty page, exhausting the budget, or a record older than the window all end
paging with the accumulated results. -/
def pagesGo (n : net) (since untilT : Nat) :
    Nat → Nat → List report.Event → List String →
    Except Unit (List report.Event × List String)
  | 0, _, evs, repos => .ok (evs, repos)
  | fuel + 1, page, evs, repos =>
    match n.pageResp page with
    | .error e => .error e
    | .ok recs =>
      if recs.isEmpty then .ok (evs, repos)
      else
        match processRecords since untilT recs evs repos with
        | (evs2, repos2, true) => .ok (evs2, repos2)
        | (evs2, repos2, false) => pagesGo n since untilT fuel (page + 1) evs2 repos2

/-- Phase 1 of the GitHub adapter: identity resolution then the page loop. -/
def phase1 (n : net) (since untilT : Nat) :
    Except Unit (List report.Event × List String) :=
  match n.userResp with
  | .error e => .error e
  | .ok _username => pagesGo n since untilT 10 1 [] []

/-- Go `strings.SplitN(s, pat, 2)[1]`: drop everything through the first
occurrence of `pat`; `none` when `pat` does not occur.  Helper: strip `p`
from the front of `s`. -/
def stripFront : List Char → List Char → Option (List Char)
  | [], s => some s
  | _ :: _, [] => none
  | p :: ps, c :: cs => if p = c then stripFront ps cs else none

def afterFirst (pat : List Char) : List Char → Option (List Char)
  | [] => none
  | c :: cs =>
    match stripFront pat (c :: cs) with
    | some rest => some rest
    | none => afterFirst pat cs

/-- Extract the repo name from a `repository_url` field
(Go: `strings.SplitN(url, "/repos/", 2)`, keeping the tail, else `""`). -/
def repoFromURL (s : String) : String :=
  match afterFirst ("/repos/".toList) s.toList with
  | some r => String.mk r
  | none => ""

/-- Go `fetchCIFailures` body: per touched repo, decode the failed workflow
runs; every failure for a repo just skips that repo.  Runs created after the
window end are skipped. -/
def ciList (n : net) (untilT : Nat) : List String → List report.Event
  | [] => []
  | repoName :: rest =>
    (match n.ciResp repoName with
     | .error _ => []
     | .ok runs =>
       (runs.filter (fun run => !(decide (untilT < run.createdAt)))).map (fun run =>
         { category := report.CategoryPipeline
           action := "failed"
           title := run.name ++ " on " ++ run.headBranch
           url := run.htmlURL
           repo := repoName
           source := "github"
           createdAt := run.createdAt }))
    ++ ciList n untilT rest

/-- Go `fetchCIFailures`: always returns a nil error (all per-repo failures
are skipped inside the loop). -/
def fetchCIFailures (n : net) (_username : String) (repos : List String)
    (_since untilT : Nat) : Except Unit (List report.Event) :=
  .ok (ciList n untilT repos)

/-- Go `fetchPendingReviews`: one search request; a failure is an error of
this sub-fetch, otherwise one PendingReview event per item. -/
def fetchPendingReviews (n : net) (_username : String) :
    Except Unit (List report.Event) :=
  match n.reviewResp with
  | .error e => .error e
  | .ok items =>
    .ok (items.map (fun item =>
      { category := report.CategoryPendingReview
        action := "awaiting your review"
        title := "#" ++ toString item.number ++ " " ++ item.title
        url := item.htmlURL
        repo := repoFromURL item.repositoryURL
        source := "github"
        createdAt := item.createdAt }))

/-- All timestamps carried by the decoded GitHub responses are non-zero
(Go: no raw record, workflow run or search item has the zero `time.Time`). -/
def positiveTimes (n : net) : Prop :=
  (∀ page recs, n.pageResp page = .ok recs → ∀ r ∈ recs, 0 < r.createdAt)
  ∧ (∀ repoName runs, n.ciResp repoName = .ok runs → ∀ run ∈ runs, 0 < run.createdAt)
  ∧ (∀ items, n.reviewResp = .ok items → ∀ it ∈ items, 0 < it.createdAt)

/-- Go `github.FetchEvents`: phase 1 (hard errors propagate), then the two
phase-2 sub-fetches, whose failures are demoted to warnings and contribute
no events. -/
def FetchEvents (n : net) (since untilT : Nat) : Except Unit (List report.Event) :=
  match n.userResp with
  | .error e => .error e
  | .ok username =>
    match pagesGo n since untilT 10 1 [] [] with
    | .error e => .error e
    | .ok (events, repos) =>
      let ciEvents :=
        match fetchCIFailures n username repos since untilT with
        | .error _ => []
        | .ok l => l
      let prEvents :=
        match fetchPendingReviews n username with
        | .error _ => []
        | .ok l => l
      .ok (events ++ ciEvents ++ prEvents)

end github

namespace gitlab

structure user where
  id : Nat
  username : String := ""
deriving DecidableEq, Repr

structure pushData where
  commitCount : Nat
  commitTitle : String
  ref : String
deriving DecidableEq, Repr

structure note where
  body : String := ""
  noteableType : String
deriving DecidableEq, Repr

/-- Raw GitLab activity-feed record (Go struct `gitlab.event`).  The optional
`push_data` / `note` sub-objects drive the shape-sniffing classification. -/
structure event where
  id : Nat := 0
  actionName : String := ""
  targetType : String := ""
  targetTitle : String := ""
  targetIID : Nat := 0
  createdAt : Nat
  pushData : Option pushData := none
  note : Option note := none
  projectID : Nat
deriving DecidableEq, Repr

structure project where
  pathWithNamespace : String
  webURL : String := ""
deriving DecidableEq, Repr

structure pipeline where
  id : Nat := 0
  status : String := ""
  ref : String := ""
  webURL : String := ""
  updatedAt : Nat
  userID : Nat
deriving DecidableEq, Repr

structure mergeRequest where
  iid : Nat := 0
  title : String := ""
  webURL : String := ""
  projectID : Nat
  createdAt : Nat
deriving DecidableEq, Repr

/-- Decoded responses for every GitLab endpoint the adapter consults;
`Except.error ()` covers transport, status and decode failures alike. -/
structure net where
  userResp : Except Unit user
  pageResp : Nat → Except Unit (List event)
  projResp : Nat → Except Unit project
  pipeResp : Nat → Except Unit (List pipeline)
  mrResp : Except Unit (List mergeRequest)

/-- The project cache (Go `map[int]*project`), in insertion order. -/
abbrev Cache : Type := List (Nat × project)

def cacheLookup : Cache → Nat → Option project
  | [], _ => none
  | (k, v) :: rest, pid => if k = pid then some v else cacheLookup rest pid

def cacheKeys (c : Cache) : List Nat := c.map Prod.fst

/-- Go `resolveProject`: a cache hit returns the cached descriptor with no
request; a miss issues one lookup request (the third component counts
requests) and stores the descriptor only on success. -/
def resolveProject (n : net) (projectID : Nat) (cache : Cache) :
    Except Unit project × Cache × Nat :=
  match cacheLookup cache projectID with
  | some p => (.ok p, cache, 0)
  | none =>
    match n.projResp projectID with
    | .error e => (.error e, cache, 1)
    | .ok proj => (.ok proj, cache ++ [(projectID, proj)], 1)

/-- Go `gitlab.parseEvent`: shape-sniffing classification of one record,
first by `push_data`, then target type, then the presence of a note. -/
def parseEvent (e : event) (proj : project) : List report.Event :=
  let repoName := proj.pathWithNamespace
  match e.pushData with
  | some pd =>
    let title :=
      if pd.commitTitle = "" then
        toString pd.commitCount ++ " commit(s) to " ++ pd.ref
      else pd.commitTitle
    [{ category := report.CategoryCommit
       action := "pushed"
       title := title
       repo := repoName
       source := "gitlab"
       createdAt := e.createdAt }]
  | none =>
    if e.targetType = "MergeRequest" then
      let cat := if e.actionName = "approved" then report.CategoryReview else report.CategoryPR
      [{ category := cat
         action := e.actionName
         title := "!" ++ toString e.targetIID ++ " " ++ e.targetTitle
         url := proj.webURL ++ "/-/merge_requests/" ++ toString e.targetIID
         repo := repoName
         source := "gitlab"
         createdAt := e.createdAt }]
    else if e.targetType = "Issue" then
      [{ category := report.CategoryIssue
         action := e.actionName
         title := "#" ++ toString e.targetIID ++ " " ++ e.targetTitle
         url := proj.webURL ++ "/-/issues/" ++ toString e.targetIID
         repo := repoName
         source := "gitlab"
         createdAt := e.createdAt }]
    else
      match e.note with
      | some nt =>
        let cat :=
          if nt.noteableType = "MergeRequest" then report.CategoryReviewComment
          else report.CategoryComment
        [{ category := cat
           action := "commented"
           title := e.targetTitle
           repo := repoName
           source := "gitlab"
           createdAt := e.createdAt }]
      | none => []

/-- Phase-1 accumulator: events so far, the shared project cache, the
touched project-id set (insertion order) and the number of project-lookup
requests issued so far. -/
structure Phase1State where
  events : List report.Event
  cache : Cache
  projectIDs : List Nat
  requests : Nat

def insertID (l : List Nat) (pid : Nat) : List Nat :=
  if pid ∈ l then l else l ++ [pid]

/-- The record loop inside a page (Go: `for _, e := range glEvents`).
A record older than the window is skipped (the loop continues — no early
stop); a record whose project cannot be resolved is skipped too.  Note that
no upper window bound is checked here: the Go code delegates the upper bound
to the request's `before` query parameter. -/
def processRecords (n : net) (since : Nat) :
    List event → Phase1State → Phase1State
  | [], st => st
  | e :: rest, st =>
    if e.createdAt < since then processRecords n since rest st
    else
      match resolveProject n e.projectID st.cache with
      | (.error _, cache2, k) =>
        processRecords n since rest { st with cache := cache2, requests := st.requests + k }
      | (.ok proj, cache2, k) =>
        processRecords n since rest
          { events := st.events ++ parseEvent e proj
            cache := cache2
            projectIDs := insertID st.projectIDs e.projectID
            requests := st.requests + k }

/-- The page loop (Go: `for page := 1; page <= 100; page++`), with the
remaining page budget as fuel.  A failed page aborts the fetch; an empty
page or an exhausted budget ends paging.  Unlike the GitHub loop, nothing
inside a page ends paging early. -/
def pagesGo (n : net) (since : Nat) :
    Nat → Nat → Phase1State → Except Unit Phase1State
  | 0, _, st => .ok st
  | fuel + 1, page, st =>
    match n.pageResp page with
    | .error e => .error e
    | .ok recs =>
      if recs.isEmpty then .ok st
      else pagesGo n since fuel (page + 1) (processRecords n since recs st)

/-- Phase 1 of the GitLab adapter: identity resolution then the page loop.
The window's upper bound is used only in request URLs, so it does not appear
here. -/
def phase1 (n : net) (since : Nat) : Except Unit (user × Phase1State) :=
  match n.userResp with
  | .error e => .error e
  | .ok u =>
    match pagesGo n since 100 1 { events := [], cache := [], projectIDs := [], requests := 0 } with
    | .error e => .error e
    | .ok st => .ok (u, st)

/-- Go `fetchCIFailures` body: per touched project, read the descriptor from
the snapshot (read-only — a missing entry or any fetch failure skips the
project) and emit one PipelineFailure event per failed pipeline triggered by
the user. -/
def ciList (n : net) (userID : Nat) : List Nat → Cache → List report.Event
  | [], _ => []
  | pid :: rest, cache =>
    (match cacheLookup cache pid with
     | none => []
     | some proj =>
       match n.pipeResp pid with
       | .error _ => []
       | .ok pipelines =>
         (pipelines.filter (fun p => p.userID == userID)).map (fun p =>
           { category := report.CategoryPipeline
             action := "failed"
             title := "pipeline " ++ toString p.id ++ " on " ++ p.ref
             url := p.webURL
             repo := proj.pathWithNamespace
             source := "gitlab"
             createdAt := p.updatedAt }))
    ++ ciList n userID rest cache

/-- Go `fetchCIFailures`: always returns a nil error (all per-project
failures are skipped inside the loop). -/
def fetchCIFailures (n : net) (userID : Nat) (projectIDs : List Nat)
    (cache : Cache) (_since _untilT : Nat) : Except Unit (List report.Event) :=
  .ok (ciList n userID projectIDs cache)

/-- The merge-request loop of `fetchPendingReviews`, threading the local
cache copy through its own `resolveProject` calls.  Returns the events and
the final state of the local cache (which the Go code simply drops). -/
def reviewLoop (n : net) : List mergeRequest → Cache → List report.Event × Cache
  | [], localCache => ([], localCache)
  | mr :: rest, localCache =>
    match resolveProject n mr.projectID localCache with
    | (.error _, cache2, _) => reviewLoop n rest cache2
    | (.ok proj, cache2, _) =>
      ({ category := report.CategoryPendingReview
         action := "awaiting your review"
         title := "!" ++ toString mr.iid ++ " " ++ mr.title
         url := mr.webURL
         repo := proj.pathWithNamespace
         source := "gitlab"
         createdAt := mr.createdAt } :: (reviewLoop n rest cache2).1,
       (reviewLoop n rest cache2).2)

/-- Go `fetchPendingReviews`: one list request (its failure is an error of
this sub-fetch), then the merge-request loop over a private copy of the
snapshot (Go builds `localCache` by copying `cacheSnapshot`). -/
def fetchPendingReviews (n : net) (_userID : Nat) (cacheSnapshot : Cache) :
    Except Unit (List report.Event × Cache) :=
  match n.mrResp with
  | .error e => .error e
  | .ok mrs =>
    let localCache := cacheSnapshot
    .ok (reviewLoop n mrs localCache)

/-- All timestamps carried by the decoded GitLab responses are non-zero
(Go: no raw record, pipeline or merge request has the zero `time.Time`). -/
def positiveTimes (n : net) : Prop :=
  (∀ page recs, n.pageResp page = .ok recs → ∀ r ∈ recs, 0 < r.createdAt)
  ∧ (∀ pid pipelines, n.pipeResp pid = .ok pipelines → ∀ p ∈ pipelines, 0 < p.updatedAt)
  ∧ (∀ mrs, n.mrResp = .ok mrs → ∀ mr ∈ mrs, 0 < mr.createdAt)

/-- Go `gitlab.FetchEvents`: phase 1 (hard errors propagate), snapshot of
the shared cache, then the two phase-2 sub-fetches, whose failures are
demoted to warnings.  The second component of the result is the shared
`projectCache` map as it stands when the function returns. -/
def FetchEvents (n : net) (since untilT : Nat) :
    Except Unit (List report.Event × Cache) :=
  match n.userResp with
  | .error e => .error e
  | .ok u =>
    match pagesGo n since 100 1 { events := [], cache := [], projectIDs := [], requests := 0 } with
    | .error e => .error e
    | .ok st =>
      let cacheSnapshot := st.cache
      let ciEvents :=
        match fetchCIFailures n u.id st.projectIDs cacheSnapshot since untilT with
        | .error _ => []
        | .ok l => l
      let prEvents :=
        match fetchPendingReviews n u.id cacheSnapshot with
        | .error _ => []
        | .ok (l, _) => l
      .ok (st.events ++ ciEvents ++ prEvents, st.cache)

/-- Folding `resolveProject` over a sequence of project ids against one
cache, returning the total number of lookup requests issued and the final
cache.  This abstracts the sequence of `resolveProject` calls a run makes. -/
def resolveRun (n : net) : List Nat → Cache → Nat × Cache
  | [], cache => (0, cache)
  | pid :: rest, cache =>
    ((resolveProject n pid cache).2.2
        + (resolveRun n rest (resolveProject n pid cache).2.1).1,
     (resolveRun n rest (resolveProject n pid cache).2.1).2)

end gitlab

namespace cmd

/-- One adapter's contribution to the aggregator state: its events when it
succeeded, or one warning tagged with the platform when it failed; an
unconfigured adapter (no token) contributes nothing. -/
def adapterContribution (tag : String) :
    Option (Except Unit (List report.Event)) → List report.Event × List String
  | none => ([], [])
  | some (.ok evs) => (evs, [])
  | some (.error _) => ([], [tag])

/-- Go `run` (cmd), modelled from the point where the two adapter results
are joined: `none` means the platform's token is unset.  With no token at
all `run` errors before any fetch; otherwise it concatenates the successful
results, collects one warning per failed adapter, and returns without
error (the report is generated from whatever was collected). -/
def run (githubRes gitlabRes : Option (Except Unit (List report.Event))) :
    Except Unit (List report.Event × List String) :=
  match githubRes, gitlabRes with
  | none, none => .error ()
  | _, _ =>
    let g := adapterContribution "github" githubRes
    let l := adapterContribution "gitlab" gitlabRes
    .ok (g.1 ++ l.1, g.2 ++ l.2)

end cmd

/-! ## Helper lemmas -/

theorem takeWhile_append_stop {l₁ l₂ : List Char}
    (h : '\n' ∉ l₁) :
    (l₁ ++ '\n' :: l₂).takeWhile (fun c => c != '\n') = l₁ := by
  induction l₁ with
  | nil => simp [List.takeWhile]
  | cons a l ih =>
    have ha : a ≠ '\n' := fun hc => h (by simp [hc])
    have hl : '\n' ∉ l := fun hc => h (List.mem_cons_of_mem _ hc)
    simp only [List.cons_append, List.takeWhile_cons]
    simp [ha, ih hl]

theorem takeWhile_no_stop {l : List Char} (h : '\n' ∉ l) :
    l.takeWhile (fun c => c != '\n') = l := by
  induction l with
  | nil => rfl
  | cons a l ih =>
    have ha : a ≠ '\n' := fun hc => h (by simp [hc])
    have hl : '\n' ∉ l := fun hc => h (List.mem_cons_of_mem _ hc)
    simp only [List.takeWhile_cons]
    simp [ha, ih hl]

theorem firstLine_stop (l₁ l₂ : List Char) (h : '\n' ∉ l₁) :
    github.firstLine (String.mk (l₁ ++ '\n' :: l₂)) = String.mk l₁ := by
  show String.mk ((l₁ ++ '\n' :: l₂).takeWhile _) = _
  rw [takeWhile_append_stop h]

theorem firstLine_id (l : List Char) (h : '\n' ∉ l) :
    github.firstLine (String.mk l) = String.mk l := by
  show String.mk (l.takeWhile _) = _
  rw [takeWhile_no_stop h]

theorem cacheKeys_append (c : gitlab.Cache) (pid : Nat) (p : gitlab.project) :
    gitlab.cacheKeys (c ++ [(pid, p)]) = gitlab.cacheKeys c ++ [pid] := by
  simp [gitlab.cacheKeys]

theorem cacheLookup_none_iff (c : gitlab.Cache) (pid : Nat) :
    gitlab.cacheLookup c pid = none ↔ pid ∉ gitlab.cacheKeys c := by
  induction c with
  | nil => simp [gitlab.cacheLookup, gitlab.cacheKeys]
  | cons kv rest ih =>
    obtain ⟨k, v⟩ := kv
    by_cases h : k = pid
    · subst h
      simp [gitlab.cacheLookup, gitlab.cacheKeys]
    · have h2 : pid ≠ k := fun hc => h hc.symm
      simp [gitlab.cacheLookup, gitlab.cacheKeys, h, h2, ih]

theorem cacheLookup_of_mem (c : gitlab.Cache) (pid : Nat)
    (h : pid ∈ gitlab.cacheKeys c) :
    ∃ q, gitlab.cacheLookup c pid = some q := by
  cases hl : gitlab.cacheLookup c pid with
  | none => exact absurd ((cacheLookup_none_iff c pid).1 hl) (not_not_intro h)
  | some q => exact ⟨q, rfl⟩

theorem card_insert_erase (s : Finset Nat) (a : Nat) :
    (insert a s).card = (s.erase a).card + 1 := by
  by_cases h : a ∈ s
  · rw [Finset.insert_eq_self.2 h, ← Finset.card_erase_add_one h]
  · rw [Finset.card_insert_of_not_mem h, Finset.erase_eq_of_not_mem h]

theorem resolveRun_count (n : gitlab.net) :
    ∀ (ids : List Nat) (cache : gitlab.Cache),
    (∀ pid ∈ ids, ∃ p, n.projResp pid = .ok p) →
    (gitlab.resolveRun n ids cache).1 =
      (ids.toFinset \ (gitlab.cacheKeys cache).toFinset).card := by
  intro ids
  induction ids with
  | nil =>
    intro cache _
    simp [gitlab.resolveRun]
  | cons pid rest ih =>
    intro cache hsucc
    have hrest : ∀ q ∈ rest, ∃ p, n.projResp q = .ok p :=
      fun q hq => hsucc q (List.mem_cons_of_mem _ hq)
    by_cases hmem : pid ∈ gitlab.cacheKeys cache
    · obtain ⟨q, hq⟩ := cacheLookup_of_mem cache pid hmem
      have hres : gitlab.resolveProject n pid cache = (.ok q, cache, 0) := by
        simp [gitlab.resolveProject, hq]
      have hK : pid ∈ (gitlab.cacheKeys cache).toFinset := List.mem_toFinset.2 hmem
      simp only [gitlab.resolveRun, hres]
      rw [ih cache hrest, List.toFinset_cons, Finset.insert_sdiff_of_mem _ hK]
      omega
    · have hnone : gitlab.cacheLookup cache pid = none :=
        (cacheLookup_none_iff cache pid).2 hmem
      obtain ⟨p, hp⟩ := hsucc pid (List.mem_cons_self _ _)
      have hres : gitlab.resolveProject n pid cache = (.ok p, cache ++ [(pid, p)], 1) := by
        simp [gitlab.resolveProject, hnone, hp]
      have hK : pid ∉ (gitlab.cacheKeys cache).toFinset :=
        fun hc => hmem (List.mem_toFinset.1 hc)
      have hkeys : (gitlab.cacheKeys (cache ++ [(pid, p)])).toFinset =
          insert pid (gitlab.cacheKeys cache).toFinset := by
        rw [cacheKeys_append, List.toFinset_append]
        simp [Finset.insert_eq, Finset.union_comm]
      simp only [gitlab.resolveRun, hres]
      rw [ih (cache ++ [(pid, p)]) hrest, hkeys, Finset.sdiff_insert,
        List.toFinset_cons, Finset.insert_sdiff_of_not_mem _ hK, card_insert_erase]
      omega

theorem gh_parseEvent_createdAt (e : github.event) :
    ∀ ev ∈ github.parseEvent e, ev.createdAt = e.createdAt := by
  intro ev hev
  unfold github.parseEvent at hev
  split at hev
  all_goals first
    | (simp only [List.mem_map] at hev; obtain ⟨c, -, rfl⟩ := hev; rfl)
    | (simp only [List.mem_singleton] at hev; subst hev; rfl)
    | simp at hev

theorem gh_processRecords_inv (since untilT : Nat) (P : report.Event → Prop) :
    ∀ (recs : List github.event) (evs : List report.Event) (repos : List String),
    (∀ r ∈ recs, ¬ r.createdAt < since → ¬ untilT < r.createdAt →
      ∀ ev ∈ github.parseEvent r, P ev) →
    (∀ ev ∈ evs, P ev) →
    ∀ ev ∈ (github.processRecords since untilT recs evs repos).1, P ev := by
  intro recs
  induction recs with
  | nil =>
    intro evs repos _ hevs
    simpa [github.processRecords] using hevs
  | cons r rest ih =>
    intro evs repos hrecs hevs
    have hr := hrecs r (by simp)
    have hrest : ∀ x ∈ rest, ¬ x.createdAt < since → ¬ untilT < x.createdAt →
        ∀ ev ∈ github.parseEvent x, P ev :=
      fun x hx => hrecs x (List.mem_cons_of_mem _ hx)
    by_cases h1 : r.createdAt < since
    · simpa [github.processRecords, h1] using hevs
    · by_cases h2 : untilT < r.createdAt
      · simpa [github.processRecords, h1, h2] using ih evs repos hrest hevs
      · have hevs2 : ∀ ev ∈ evs ++ github.parseEvent r, P ev := by
          intro ev hev
          rcases List.mem_append.1 hev with h | h
          · exact hevs ev h
          · exact hr h1 h2 ev h
        simpa [github.processRecords, h1, h2] using ih _ _ hrest hevs2

theorem gh_pagesGo_inv (gn : github.net) (since untilT : Nat)
    (P : report.Event → Prop)
    (hnet : ∀ page recs, gn.pageResp page = .ok recs →
      ∀ r ∈ recs, ¬ r.createdAt < since → ¬ untilT < r.createdAt →
        ∀ ev ∈ github.parseEvent r, P ev) :
    ∀ (fuel page : Nat) (evs : List report.Event) (repos : List String)
      (out : List report.Event × List String),
    (∀ ev ∈ evs, P ev) →
    github.pagesGo gn since untilT fuel page evs repos = .ok out →
    ∀ ev ∈ out.1, P ev := by
  intro fuel
  induction fuel with
  | zero =>
    intro page evs repos out hevs hrun
    simp only [github.pagesGo, Except.ok.injEq] at hrun
    subst hrun
    exact hevs
  | succ fuel ih =>
    intro page evs repos out hevs hrun
    simp only [github.pagesGo] at hrun
    cases hresp : gn.pageResp page with
    | error err => rw [hresp] at hrun; cases hrun
    | ok recs =>
      rw [hresp] at hrun
      by_cases hemp : recs.isEmpty
      · simp only [hemp, if_true, Except.ok.injEq] at hrun
        subst hrun
        exact hevs
      · simp only [hemp, if_false, Bool.false_eq_true] at hrun
        have hproc := gh_processRecords_inv since untilT P recs evs repos
          (hnet page recs hresp) hevs
        rcases hp : github.processRecords since untilT recs evs repos with ⟨evs2, repos2, flag⟩
        rw [hp] at hrun hproc
        cases flag
        · exact ih (page + 1) evs2 repos2 out hproc hrun
        · simp only [Except.ok.injEq] at hrun
          subst hrun
          exact hproc

theorem commit_mem_cats : report.CategoryCommit ∈ report.allCategories := by decide

theorem pr_mem_cats : report.CategoryPR ∈ report.allCategories := by decide

theorem review_mem_cats : report.CategoryReview ∈ report.allCategories := by decide

theorem reviewComment_mem_cats : report.CategoryReviewComment ∈ report.allCategories := by
  decide

theorem issue_mem_cats : report.CategoryIssue ∈ report.allCategories := by decide

theorem comment_mem_cats : report.CategoryComment ∈ report.allCategories := by decide

theorem pipeline_mem_cats : report.CategoryPipeline ∈ report.allCategories := by decide

theorem pendingReview_mem_cats : report.CategoryPendingReview ∈ report.allCategories := by
  decide

theorem gh_parseEvent_wf (e : github.event) :
    ∀ ev ∈ github.parseEvent e,
      ev.category ∈ report.allCategories ∧ ev.source = "github" := by
  intro ev hev
  unfold github.parseEvent at hev
  split at hev
  · simp only [List.mem_map] at hev
    obtain ⟨c, -, rfl⟩ := hev
    exact ⟨commit_mem_cats, rfl⟩
  · simp only [List.mem_singleton] at hev
    subst hev
    exact ⟨pr_mem_cats, rfl⟩
  · simp only [List.mem_singleton] at hev
    subst hev
    exact ⟨review_mem_cats, rfl⟩
  · simp only [List.mem_singleton] at hev
    subst hev
    exact ⟨reviewComment_mem_cats, rfl⟩
  · simp only [List.mem_singleton] at hev
    subst hev
    exact ⟨issue_mem_cats, rfl⟩
  · simp only [List.mem_singleton] at hev
    subst hev
    exact ⟨comment_mem_cats, rfl⟩
  · simp at hev

theorem gl_parseEvent_wf (e : gitlab.event) (proj : gitlab.project) :
    ∀ ev ∈ gitlab.parseEvent e proj,
      ev.category ∈ report.allCategories ∧ ev.source = "gitlab"
        ∧ ev.createdAt = e.createdAt := by
  intro ev hev
  unfold gitlab.parseEvent at hev
  split at hev
  · simp only [List.mem_singleton] at hev
    subst hev
    exact ⟨commit_mem_cats, rfl, rfl⟩
  · split at hev
    · simp only [List.mem_singleton] at hev
      subst hev
      refine ⟨?_, rfl, rfl⟩
      show (if e.actionName = "approved" then report.CategoryReview else report.CategoryPR)
        ∈ report.allCategories
      split
      · exact review_mem_cats
      · exact pr_mem_cats
    · split at hev
      · simp only [List.mem_singleton] at hev
        subst hev
        exact ⟨issue_mem_cats, rfl, rfl⟩
      · split at hev
        · simp only [List.mem_singleton] at hev
          subst hev
          rename_i nt _
          refine ⟨?_, rfl, rfl⟩
          show (if nt.noteableType = "MergeRequest" then report.CategoryReviewComment
            else report.CategoryComment) ∈ report.allCategories
          split
          · exact reviewComment_mem_cats
          · exact comment_mem_cats
        · simp at hev

theorem gh_process_stop (since untilT : Nat) (e : github.event)
    (post : List github.event) :
    ∀ (pre : List github.event) (evs : List report.Event) (repos : List String),
    (∀ r ∈ pre, ¬ r.createdAt < since) → e.createdAt < since →
    github.processRecords since untilT (pre ++ e :: post) evs repos =
      ((github.processRecords since untilT pre evs repos).1,
       (github.processRecords since untilT pre evs repos).2.1, true) := by
  intro pre
  induction pre with
  | nil =>
    intro evs repos _ he
    simp [github.processRecords, he]
  | cons r rest ih =>
    intro evs repos hpre he
    have hr : ¬ r.createdAt < since := hpre r (by simp)
    have hrest : ∀ x ∈ rest, ¬ x.createdAt < since :=
      fun x hx => hpre x (List.mem_cons_of_mem _ hx)
    by_cases hu : untilT < r.createdAt
    · simpa [github.processRecords, hr, hu] using ih evs repos hrest he
    · simpa [github.processRecords, hr, hu] using ih _ _ hrest he

theorem gh_pagesGo_stop (gn : github.net) (since untilT fuel page : Nat)
    (evs : List report.Event) (repos : List String)
    (pre : List github.event) (e : github.event) (post : List github.event)
    (hpage : gn.pageResp page = .ok (pre ++ e :: post))
    (hpre : ∀ r ∈ pre, ¬ r.createdAt < since)
    (he : e.createdAt < since) :
    github.pagesGo gn since untilT (fuel + 1) page evs repos =
      .ok ((github.processRecords since untilT pre evs repos).1,
           (github.processRecords since untilT pre evs repos).2.1) := by
  have hne : (pre ++ e :: post).isEmpty = false := by cases pre <;> rfl
  have hstop := gh_process_stop since untilT e post pre evs repos hpre he
  simp [github.pagesGo, hpage, hne, hstop]

theorem resolveProject_cache_extends (n : gitlab.net) (pid : Nat) (c : gitlab.Cache) :
    ∃ ext, (gitlab.resolveProject n pid c).2.1 = c ++ ext := by
  unfold gitlab.resolveProject
  cases h : gitlab.cacheLookup c pid with
  | some p => exact ⟨[], by simp⟩
  | none =>
    cases hp : n.projResp pid with
    | error e => exact ⟨[], by simp⟩
    | ok proj => exact ⟨[(pid, proj)], by simp⟩

theorem reviewLoop_cache_extends (n : gitlab.net) :
    ∀ (mrs : List gitlab.mergeRequest) (c : gitlab.Cache),
    ∃ ext, (gitlab.reviewLoop n mrs c).2 = c ++ ext := by
  intro mrs
  induction mrs with
  | nil => intro c; exact ⟨[], by simp [gitlab.reviewLoop]⟩
  | cons mr rest ih =>
    intro c
    obtain ⟨d, hd⟩ := resolveProject_cache_extends n mr.projectID c
    rcases hres : gitlab.resolveProject n mr.projectID c with ⟨r, c2, k⟩
    rw [hres] at hd
    simp only at hd
    subst hd
    obtain ⟨e2, he2⟩ := ih (c ++ d)
    cases r with
    | error err =>
      refine ⟨d ++ e2, ?_⟩
      simp only [gitlab.reviewLoop, hres, he2, List.append_assoc]
    | ok proj =>
      refine ⟨d ++ e2, ?_⟩
      simp only [gitlab.reviewLoop, hres, he2, List.append_assoc]

theorem gl_phase1_inv (ln : gitlab.net) (since : Nat) (u : gitlab.user)
    (st : gitlab.Phase1State)
    (h : gitlab.phase1 ln since = .ok (u, st)) :
    ln.userResp = .ok u
    ∧ gitlab.pagesGo ln since 100 1
        { events := [], cache := [], projectIDs := [], requests := 0 } = .ok st := by
  unfold gitlab.phase1 at h
  cases hu : ln.userResp with
  | error e => rw [hu] at h; cases h
  | ok u2 =>
    rw [hu] at h
    cases hp : gitlab.pagesGo ln since 100 1
        { events := [], cache := [], projectIDs := [], requests := 0 } with
    | error e => rw [hp] at h; cases h
    | ok st2 =>
      rw [hp] at h
      simp only [Except.ok.injEq, Prod.mk.injEq] at h
      obtain ⟨h1, h2⟩ := h
      subst h1; subst h2
      exact ⟨rfl, rfl⟩

theorem gl_processRecords_inv (ln : gitlab.net) (since : Nat)
    (P : report.Event → Prop) :
    ∀ (recs : List gitlab.event) (st : gitlab.Phase1State),
    (∀ r ∈ recs, ¬ r.createdAt < since →
      ∀ proj, ∀ ev ∈ gitlab.parseEvent r proj, P ev) →
    (∀ ev ∈ st.events, P ev) →
    ∀ ev ∈ (gitlab.processRecords ln since recs st).events, P ev := by
  intro recs
  induction recs with
  | nil =>
    intro st _ hevs
    simpa [gitlab.processRecords] using hevs
  | cons r rest ih =>
    intro st hrecs hevs
    have hr := hrecs r (by simp)
    have hrest : ∀ x ∈ rest, ¬ x.createdAt < since →
        ∀ proj, ∀ ev ∈ gitlab.parseEvent x proj, P ev :=
      fun x hx => hrecs x (List.mem_cons_of_mem _ hx)
    by_cases h1 : r.createdAt < since
    · simpa [gitlab.processRecords, h1] using ih st hrest hevs
    · rcases hres : gitlab.resolveProject ln r.projectID st.cache with ⟨res, c2, k⟩
      cases res with
      | error err =>
        simpa [gitlab.processRecords, h1, hres] using
          ih { st with cache := c2, requests := st.requests + k } hrest hevs
      | ok proj =>
        have hevs2 : ∀ ev ∈ st.events ++ gitlab.parseEvent r proj, P ev := by
          intro ev hev
          rcases List.mem_append.1 hev with h | h
          · exact hevs ev h
          · exact hr h1 proj ev h
        simpa [gitlab.processRecords, h1, hres] using
          ih { events := st.events ++ gitlab.parseEvent r proj
               cache := c2
               projectIDs := gitlab.insertID st.projectIDs r.projectID
               requests := st.requests + k } hrest hevs2

theorem gl_pagesGo_inv (ln : gitlab.net) (since : Nat)
    (P : report.Event → Prop)
    (hnet : ∀ page recs, ln.pageResp page = .ok recs →
      ∀ r ∈ recs, ¬ r.createdAt < since →
        ∀ proj, ∀ ev ∈ gitlab.parseEvent r proj, P ev) :
    ∀ (fuel page : Nat) (st out : gitlab.Phase1State),
    (∀ ev ∈ st.events, P ev) →
    gitlab.pagesGo ln since fuel page st = .ok out →
    ∀ ev ∈ out.events, P ev := by
  intro fuel
  induction fuel with
  | zero =>
    intro page st out hevs hrun
    simp only [gitlab.pagesGo, Except.ok.injEq] at hrun
    subst hrun
    exact hevs
  | succ fuel ih =>
    intro page st out hevs hrun
    simp only [gitlab.pagesGo] at hrun
    cases hresp : ln.pageResp page with
    | error err => rw [hresp] at hrun; cases hrun
    | ok recs =>
      rw [hresp] at hrun
      by_cases hemp : recs.isEmpty
      · simp only [hemp, if_true, Except.ok.injEq] at hrun
        subst hrun
        exact hevs
      · simp only [hemp, if_false, Bool.false_eq_true] at hrun
        exact ih (page + 1) _ out
          (gl_processRecords_inv ln since P recs st (hnet page recs hresp) hevs) hrun

theorem gh_ciList_mem (gn : github.net) (untilT : Nat) :
    ∀ (repos : List String), ∀ ev ∈ github.ciList gn untilT repos,
      ev.category = report.CategoryPipeline ∧ ev.source = "github"
      ∧ ∃ repoName runs run, gn.ciResp repoName = .ok runs ∧ run ∈ runs
          ∧ ev.createdAt = run.createdAt := by
  intro repos
  induction repos with
  | nil => intro ev hev; simp [github.ciList] at hev
  | cons r rest ih =>
    intro ev hev
    simp only [github.ciList] at hev
    rcases List.mem_append.1 hev with h | h
    · cases hci : gn.ciResp r with
      | error err => rw [hci] at h; simp at h
      | ok runs =>
        rw [hci] at h
        simp only [List.mem_map] at h
        obtain ⟨run, hrun, rfl⟩ := h
        exact ⟨rfl, rfl, r, runs, run, hci, (List.mem_filter.1 hrun).1, rfl⟩
    · exact ih ev h

theorem gl_ciList_mem (ln : gitlab.net) (userID : Nat) :
    ∀ (ids : List Nat) (cache : gitlab.Cache),
      ∀ ev ∈ gitlab.ciList ln userID ids cache,
      ev.category = report.CategoryPipeline ∧ ev.source = "gitlab"
      ∧ ∃ pid pipelines p, ln.pipeResp pid = .ok pipelines ∧ p ∈ pipelines
          ∧ ev.createdAt = p.updatedAt := by
  intro ids
  induction ids with
  | nil => intro cache ev hev; simp [gitlab.ciList] at hev
  | cons pid rest ih =>
    intro cache ev hev
    simp only [gitlab.ciList] at hev
    rcases List.mem_append.1 hev with h | h
    · cases hl : gitlab.cacheLookup cache pid with
      | none => rw [hl] at h; simp at h
      | some proj =>
        rw [hl] at h
        cases hpi : ln.pipeResp pid with
        | error err => rw [hpi] at h; simp at h
        | ok pipelines =>
          rw [hpi] at h
          simp only [List.mem_map] at h
          obtain ⟨p, hp, rfl⟩ := h
          exact ⟨rfl, rfl, pid, pipelines, p, hpi, (List.mem_filter.1 hp).1, rfl⟩
    · exact ih cache ev h

theorem gl_reviewLoop_mem (ln : gitlab.net) :
    ∀ (mrs : List gitlab.mergeRequest) (c : gitlab.Cache),
      ∀ ev ∈ (gitlab.reviewLoop ln mrs c).1,
      ev.category = report.CategoryPendingReview ∧ ev.source = "gitlab"
      ∧ ∃ mr ∈ mrs, ev.createdAt = mr.createdAt := by
  intro mrs
  induction mrs with
  | nil => intro c ev hev; simp [gitlab.reviewLoop] at hev
  | cons mr rest ih =>
    intro c ev hev
    rcases hres : gitlab.resolveProject ln mr.projectID c with ⟨res, c2, k⟩
    cases res with
    | error err =>
      rw [gitlab.reviewLoop, hres] at hev
      obtain ⟨cat, src, mr2, hmr2, hca⟩ := ih c2 ev hev
      exact ⟨cat, src, mr2, List.mem_cons_of_mem _ hmr2, hca⟩
    | ok proj =>
      rw [gitlab.reviewLoop, hres] at hev
      rcases List.mem_cons.1 hev with rfl | h
      · exact ⟨rfl, rfl, mr, List.mem_cons_self _ _, rfl⟩
      · obtain ⟨cat, src, mr2, hmr2, hca⟩ := ih c2 ev h
        exact ⟨cat, src, mr2, List.mem_cons_of_mem _ hmr2, hca⟩

theorem gh_pagesGo_err (gn : github.net) (since untilT fuel page : Nat)
    (evs : List report.Event) (repos : List String)
    (h : gn.pageResp page = .error ()) :
    github.pagesGo gn since untilT (fuel + 1) page evs repos = .error () := by
  simp [github.pagesGo, h]

theorem gh_ciList_all_err (gn : github.net) (untilT : Nat)
    (h : ∀ r, gn.ciResp r = .error ()) :
    ∀ repos, github.ciList gn untilT repos = [] := by
  intro repos
  induction repos with
  | nil => rfl
  | cons r rest ih => simp [github.ciList, h r, ih]

theorem gl_pagesGo_err (ln : gitlab.net) (since fuel page : Nat)
    (st : gitlab.Phase1State)
    (h : ln.pageResp page = .error ()) :
    gitlab.pagesGo ln since (fuel + 1) page st = .error () := by
  simp [gitlab.pagesGo, h]

theorem gl_ciList_all_err (ln : gitlab.net) (userID : Nat)
    (h : ∀ pid, ln.pipeResp pid = .error ()) :
    ∀ (ids : List Nat) (cache : gitlab.Cache),
      gitlab.ciList ln userID ids cache = [] := by
  intro ids
  induction ids with
  | nil => intro cache; rfl
  | cons pid rest ih =>
    intro cache
    cases hl : gitlab.cacheLookup cache pid with
    | none => simp [gitlab.ciList, hl, ih]
    | some proj => simp [gitlab.ciList, hl, h pid, ih]

/-! ## Claim theorems -/

/-- C1: a raw record strictly older than the window start ends the GitHub
page loop at once — the rest of its page and all later pages are never
processed, the accumulated events are kept and control reaches phase 2 —
whereas the GitLab record loop merely skips such a record and the GitLab
page loop keeps fetching further pages regardless of record timestamps. -/
theorem pagination_stop_asymmetry :
    (∀ (gn : github.net) (since untilT fuel page : Nat)
        (evs : List report.Event) (repos : List String)
        (pre : List github.event) (e : github.event) (post : List github.event),
      gn.pageResp page = .ok (pre ++ e :: post) →
      (∀ r ∈ pre, ¬ r.createdAt < since) →
      e.createdAt < since →
      github.pagesGo gn since untilT (fuel + 1) page evs repos =
        .ok ((github.processRecords since untilT pre evs repos).1,
             (github.processRecords since untilT pre evs repos).2.1))
    ∧ (∀ (gn : github.net) (since untilT : Nat) (username : String)
        (pre : List github.event) (e : github.event) (post : List github.event),
      gn.userResp = .ok username →
      gn.pageResp 1 = .ok (pre ++ e :: post) →
      (∀ r ∈ pre, ¬ r.createdAt < since) →
      e.createdAt < since →
      ∃ tail, github.FetchEvents gn since untilT =
        .ok ((github.processRecords since untilT pre [] []).1 ++ tail))
    ∧ (∀ (ln : gitlab.net) (since : Nat) (e : gitlab.event)
        (post : List gitlab.event) (st : gitlab.Phase1State),
      e.createdAt < since →
      gitlab.processRecords ln since (e :: post) st =
        gitlab.processRecords ln since post st)
    ∧ (∀ (ln : gitlab.net) (since fuel page : Nat) (st : gitlab.Phase1State)
        (recs : List gitlab.event),
      ln.pageResp page = .ok recs → recs ≠ [] →
      gitlab.pagesGo ln since (fuel + 1) page st =
        gitlab.pagesGo ln since fuel (page + 1) (gitlab.processRecords ln since recs st)) := by
  refine ⟨gh_pagesGo_stop, ?_, ?_, ?_⟩
  · intro gn since untilT username pre e post huser hpage hpre he
    have h1 : github.pagesGo gn since untilT 10 1 [] [] =
        .ok ((github.processRecords since untilT pre [] []).1,
             (github.processRecords since untilT pre [] []).2.1) :=
      gh_pagesGo_stop gn since untilT 9 1 [] [] pre e post hpage hpre he
    simp only [github.FetchEvents, huser, h1, List.append_assoc]
    exact ⟨_, rfl⟩
  · intro ln since e post st he
    simp [gitlab.processRecords, he]
  · intro ln since fuel page st recs hpage hne
    have hemp : recs.isEmpty = false := by
      cases recs with
      | nil => exact absurd rfl hne
      | cons a t => rfl
    simp [gitlab.pagesGo, hpage, hemp]

/-- C1 witness: GitHub stops on a concrete page whose second record is older
than the window (the third, in-window record is never emitted), while GitLab
skips the old record and continues to the next page. -/
theorem pagination_stop_asymmetry_witness :
    github.pagesGo
      { userResp := .ok "me"
        pageResp := fun p => if p = 1 then .ok
          [{ typ := "PushEvent", repoName := "o/r"
             payload := .push { commits := [{ message := "A" }] }, createdAt := 7 },
           { typ := "PushEvent", repoName := "o/r"
             payload := .push { commits := [{ message := "old" }] }, createdAt := 3 },
           { typ := "PushEvent", repoName := "o/r"
             payload := .push { commits := [{ message := "never" }] }, createdAt := 8 }]
          else .ok []
        ciResp := fun _ => .error ()
        reviewResp := .error () } 5 10 10 1 [] [] =
      .ok ([{ category := report.CategoryCommit, action := "pushed", title := "A"
              repo := "o/r", source := "github", createdAt := 7 }], ["o/r"])
    ∧ gitlab.processRecords
        { userResp := .ok { id := 7 }, pageResp := fun _ => .ok []
          projResp := fun _ => .error (), pipeResp := fun _ => .ok [], mrResp := .ok [] }
        5 [{ createdAt := 3, projectID := 9 }]
        { events := [], cache := [], projectIDs := [], requests := 0 } =
      { events := [], cache := [], projectIDs := [], requests := 0 } := by
  constructor
  · exact pagination_stop_asymmetry.1
      _ 5 10 9 1 [] []
      [{ typ := "PushEvent", repoName := "o/r"
         payload := .push { commits := [{ message := "A" }] }, createdAt := 7 }]
      { typ := "PushEvent", repoName := "o/r"
        payload := .push { commits := [{ message := "old" }] }, createdAt := 3 }
      [{ typ := "PushEvent", repoName := "o/r"
         payload := .push { commits := [{ message := "never" }] }, createdAt := 8 }]
      rfl (by decide) (by decide)
  · exact pagination_stop_asymmetry.2.2.1
      _ 5 { createdAt := 3, projectID := 9 } [] _ (by decide)

/-- C4 counterexample: a failed lookup is not stored in the cache, so a
sequence of two `resolveProject` calls for one unresolvable id issues 2
requests while referencing M = 1 distinct id — not "exactly M". -/
theorem resolver_memoization_counterexample :
    (gitlab.resolveRun
      { userResp := .ok { id := 1 }, pageResp := fun _ => .ok []
        projResp := fun _ => .error (), pipeResp := fun _ => .ok [], mrResp := .ok [] }
      [1, 1] []).1 = 2
    ∧ ([1, 1] : List Nat).toFinset.card = 1
    ∧ (2 : Nat) ≠ 1 := ⟨rfl, by decide, by decide⟩

/-- C4 (amended): a `resolveProject` call whose id is cached issues no
request and returns the cached descriptor; a miss issues exactly one
request, and stores the descriptor on success.  Consequently, when every
referenced id resolves successfully, a call sequence over N ids with M
distinct ids issues exactly M requests; an id whose lookup fails is not
cached, so each further occurrence issues another request. -/
theorem resolver_memoization_amended :
    (∀ (n : gitlab.net) (pid : Nat) (cache : gitlab.Cache) (p : gitlab.project),
      gitlab.cacheLookup cache pid = some p →
      gitlab.resolveProject n pid cache = (.ok p, cache, 0))
    ∧ (∀ (n : gitlab.net) (pid : Nat) (cache : gitlab.Cache) (p : gitlab.project),
      gitlab.cacheLookup cache pid = none → n.projResp pid = .ok p →
      gitlab.resolveProject n pid cache = (.ok p, cache ++ [(pid, p)], 1))
    ∧ (∀ (n : gitlab.net) (pid : Nat) (cache : gitlab.Cache),
      gitlab.cacheLookup cache pid = none → n.projResp pid = .error () →
      gitlab.resolveProject n pid cache = (.error (), cache, 1))
    ∧ (∀ (n : gitlab.net) (ids : List Nat),
      (∀ pid ∈ ids, ∃ p, n.projResp pid = .ok p) →
      (gitlab.resolveRun n ids []).1 = ids.toFinset.card) := by
  refine ⟨?_, ?_, ?_, ?_⟩
  · intro n pid cache p h
    simp [gitlab.resolveProject, h]
  · intro n pid cache p h hp
    simp [gitlab.resolveProject, h, hp]
  · intro n pid cache h hp
    simp [gitlab.resolveProject, h, hp]
  · intro n ids hsucc
    rw [resolveRun_count n ids [] hsucc]
    simp [gitlab.cacheKeys]

/-- C4 witness: with an always-successful lookup endpoint, the concrete call
sequence [3, 3, 4] (N = 3, M = 2 distinct ids) issues exactly 2 requests. -/
theorem resolver_memoization_witness :
    (gitlab.resolveRun
      { userResp := .ok { id := 1 }, pageResp := fun _ => .ok []
        projResp := fun _ => .ok { pathWithNamespace := "g/p" }
        pipeResp := fun _ => .ok [], mrResp := .ok [] }
      [3, 3, 4] []).1 = 2 := by
  have h := resolver_memoization_amended.2.2.2
    { userResp := .ok { id := 1 }, pageResp := fun _ => .ok []
      projResp := fun _ => .ok { pathWithNamespace := "g/p" }
      pipeResp := fun _ => .ok [], mrResp := .ok [] }
    [3, 3, 4]
    (fun pid _ => ⟨{ pathWithNamespace := "g/p" }, rfl⟩)
  rw [h]
  decide

/-- C5: in both adapters, a phase-1 failure (identity resolution, a
primary-feed page request, or decoding its body — the first page shown
explicitly) makes `FetchEvents` return an error and no events, while
phase-2 sub-fetch failures leave the phase-1 events and the nil error
intact: the result extends the phase-1 events, and when both sub-fetches
fail it is exactly the phase-1 events. -/
theorem error_severity_policy :
    (∀ (gn : github.net) (since untilT : Nat),
      gn.userResp = .error () → github.FetchEvents gn since untilT = .error ())
    ∧ (∀ (gn : github.net) (since untilT : Nat) (username : String),
      gn.userResp = .ok username → gn.pageResp 1 = .error () →
      github.FetchEvents gn since untilT = .error ())
    ∧ (∀ (gn : github.net) (since untilT : Nat) (username : String)
        (evs : List report.Event) (repos : List String),
      gn.userResp = .ok username →
      github.pagesGo gn since untilT 10 1 [] [] = .ok (evs, repos) →
      (∃ tail, github.FetchEvents gn since untilT = .ok (evs ++ tail))
      ∧ ((gn.reviewResp = .error () ∧ ∀ r, gn.ciResp r = .error ()) →
        github.FetchEvents gn since untilT = .ok evs))
    ∧ (∀ (ln : gitlab.net) (since untilT : Nat),
      ln.userResp = .error () → gitlab.FetchEvents ln since untilT = .error ())
    ∧ (∀ (ln : gitlab.net) (since untilT : Nat) (u : gitlab.user),
      ln.userResp = .ok u → ln.pageResp 1 = .error () →
      gitlab.FetchEvents ln since untilT = .error ())
    ∧ (∀ (ln : gitlab.net) (since untilT : Nat) (u : gitlab.user)
        (st : gitlab.Phase1State),
      ln.userResp = .ok u →
      gitlab.pagesGo ln since 100 1
        { events := [], cache := [], projectIDs := [], requests := 0 } = .ok st →
      (∃ tail, gitlab.FetchEvents ln since untilT = .ok (st.events ++ tail, st.cache))
      ∧ ((ln.mrResp = .error () ∧ ∀ pid, ln.pipeResp pid = .error ()) →
        gitlab.FetchEvents ln since untilT = .ok (st.events, st.cache))) := by
  refine ⟨?_, ?_, ?_, ?_, ?_, ?_⟩
  · intro gn since untilT h
    simp [github.FetchEvents, h]
  · intro gn since untilT username h1 h2
    have h3 : github.pagesGo gn since untilT 10 1 [] [] = .error () :=
      gh_pagesGo_err gn since untilT 9 1 [] [] h2
    simp [github.FetchEvents, h1, h3]
  · intro gn since untilT username evs repos h1 h2
    constructor
    · simp only [github.FetchEvents, h1, h2, List.append_assoc]
      exact ⟨_, rfl⟩
    · rintro ⟨hrev, hci⟩
      simp [github.FetchEvents, h1, h2, github.fetchCIFailures,
        gh_ciList_all_err gn untilT hci, github.fetchPendingReviews, hrev]
  · intro ln since untilT h
    simp [gitlab.FetchEvents, h]
  · intro ln since untilT u h1 h2
    have h3 : gitlab.pagesGo ln since 100 1
        { events := [], cache := [], projectIDs := [], requests := 0 } = .error () :=
      gl_pagesGo_err ln since 99 1 _ h2
    simp [gitlab.FetchEvents, h1, h3]
  · intro ln since untilT u st h1 h2
    constructor
    · simp only [gitlab.FetchEvents, h1, h2, List.append_assoc]
      exact ⟨_, rfl⟩
    · rintro ⟨hmr, hpipe⟩
      simp [gitlab.FetchEvents, h1, h2, gitlab.fetchCIFailures,
        gl_ciList_all_err ln u.id hpipe, gitlab.fetchPendingReviews, hmr]

/-- C5 witness: on concrete fixtures where both phase-2 sub-fetches fail,
each adapter still returns exactly its phase-1 events with a nil error. -/
theorem error_severity_policy_witness :
    github.FetchEvents
      { userResp := .ok "me"
        pageResp := fun p => if p = 1 then .ok
          [{ typ := "PushEvent", repoName := "o/r"
             payload := .push { commits := [{ message := "A" }] }, createdAt := 7 }]
          else .ok []
        ciResp := fun _ => .error ()
        reviewResp := .error () } 5 10 =
      .ok [{ category := report.CategoryCommit, action := "pushed", title := "A"
             repo := "o/r", source := "github", createdAt := 7 }]
    ∧ gitlab.FetchEvents
      { userResp := .ok { id := 7 }
        pageResp := fun p => if p = 1 then .ok
          [{ createdAt := 7, projectID := 3
             pushData := some { commitCount := 1, commitTitle := "T", ref := "main" } }]
          else .ok []
        projResp := fun _ => .ok { pathWithNamespace := "g/p" }
        pipeResp := fun _ => .error ()
        mrResp := .error () } 5 10 =
      .ok ([{ category := report.CategoryCommit, action := "pushed", title := "T"
              repo := "g/p", source := "gitlab", createdAt := 7 }],
           [(3, { pathWithNamespace := "g/p" })]) := by
  constructor
  · exact (error_severity_policy.2.2.1
      { userResp := .ok "me"
        pageResp := fun p => if p = 1 then .ok
          [{ typ := "PushEvent", repoName := "o/r"
             payload := .push { commits := [{ message := "A" }] }, createdAt := 7 }]
          else .ok []
        ciResp := fun _ => .error ()
        reviewResp := .error () } 5 10 "me"
      [{ category := report.CategoryCommit, action := "pushed", title := "A"
         repo := "o/r", source := "github", createdAt := 7 }] ["o/r"]
      rfl rfl).2 ⟨rfl, fun _ => rfl⟩
  · exact (error_severity_policy.2.2.2.2.2
      { userResp := .ok { id := 7 }
        pageResp := fun p => if p = 1 then .ok
          [{ createdAt := 7, projectID := 3
             pushData := some { commitCount := 1, commitTitle := "T", ref := "main" } }]
          else .ok []
        projResp := fun _ => .ok { pathWithNamespace := "g/p" }
        pipeResp := fun _ => .error ()
        mrResp := .error () } 5 10 { id := 7 }
      { events := [{ category := report.CategoryCommit, action := "pushed", title := "T"
                     repo := "g/p", source := "gitlab", createdAt := 7 }]
        cache := [(3, { pathWithNamespace := "g/p" })]
        projectIDs := [3]
        requests := 1 }
      rfl rfl).2 ⟨rfl, fun _ => rfl⟩

/-- C9: the shared per-adapter project cache is exactly the phase-1 cache
when `FetchEvents` returns — neither phase-2 sub-fetch writes back to it
(the CI fetcher only reads the snapshot; by its type it returns no cache) —
and the pending-review fetcher's own resolutions only ever append to its
private local copy. -/
theorem phase2_cache_isolation (ln : gitlab.net) (since untilT : Nat)
    (u : gitlab.user) (st : gitlab.Phase1State)
    (h : gitlab.phase1 ln since = .ok (u, st)) :
    (∃ evs, gitlab.FetchEvents ln since untilT = .ok (evs, st.cache))
    ∧ (∀ (mrs : List gitlab.mergeRequest) (c : gitlab.Cache),
      ∃ ext, (gitlab.reviewLoop ln mrs c).2 = c ++ ext) := by
  obtain ⟨hu, hp⟩ := gl_phase1_inv ln since u st h
  constructor
  · refine ⟨st.events
      ++ (match gitlab.fetchCIFailures ln u.id st.projectIDs st.cache since untilT with
          | .error _ => [] | .ok l => l)
      ++ (match gitlab.fetchPendingReviews ln u.id st.cache with
          | .error _ => [] | .ok (l, _) => l), ?_⟩
    simp only [gitlab.FetchEvents, hu, hp]
  · exact fun mrs c => reviewLoop_cache_extends ln mrs c

/-- C9 witness: a concrete run in which the pending-review fetch resolves a
project (id 4) that phase 1 never touched — the returned shared cache still
holds exactly the phase-1 entry for project 3. -/
theorem phase2_cache_isolation_witness :
    ∃ evs, gitlab.FetchEvents
      { userResp := .ok { id := 7 }
        pageResp := fun p => if p = 1 then .ok
          [{ createdAt := 7, projectID := 3
             pushData := some { commitCount := 1, commitTitle := "T", ref := "main" } }]
          else .ok []
        projResp := fun _ => .ok { pathWithNamespace := "g/p" }
        pipeResp := fun _ => .ok []
        mrResp := .ok [{ iid := 9, title := "MR", projectID := 4, createdAt := 8 }] }
      5 10 =
      .ok (evs, [(3, { pathWithNamespace := "g/p" })]) :=
  (phase2_cache_isolation
    { userResp := .ok { id := 7 }
      pageResp := fun p => if p = 1 then .ok
        [{ createdAt := 7, projectID := 3
           pushData := some { commitCount := 1, commitTitle := "T", ref := "main" } }]
        else .ok []
      projResp := fun _ => .ok { pathWithNamespace := "g/p" }
      pipeResp := fun _ => .ok []
      mrResp := .ok [{ iid := 9, title := "MR", projectID := 4, createdAt := 8 }] }
    5 10 { id := 7 }
    { events := [{ category := report.CategoryCommit, action := "pushed", title := "T"
                   repo := "g/p", source := "gitlab", createdAt := 7 }]
      cache := [(3, { pathWithNamespace := "g/p" })]
      projectIDs := [3]
      requests := 1 }
    rfl).1

/-- C8 counterexample: a decoded GitLab pipeline with the zero timestamp
(Go's zero `time.Time`) and a matching triggering user produces a
PipelineFailure event whose `createdAt` is zero — the adapter copies raw
timestamps into events unchecked, so the non-empty-`createdAt` invariant
fails on such a response. -/
theorem event_wellformedness_counterexample :
    gitlab.FetchEvents
      { userResp := .ok { id := 7 }
        pageResp := fun p => if p = 1 then .ok
          [{ createdAt := 7, projectID := 3
             pushData := some { commitCount := 1, commitTitle := "T", ref := "main" } }]
          else .ok []
        projResp := fun _ => .ok { pathWithNamespace := "g/p" }
        pipeResp := fun _ => .ok [{ id := 12, ref := "main", updatedAt := 0, userID := 7 }]
        mrResp := .ok [] } 5 10 =
      .ok ([{ category := report.CategoryCommit, action := "pushed", title := "T"
              repo := "g/p", source := "gitlab", createdAt := 7 },
            { category := report.CategoryPipeline, action := "failed"
              title := "pipeline 12 on main", repo := "g/p", source := "gitlab"
              createdAt := 0 }],
           [(3, { pathWithNamespace := "g/p" })])
    ∧ ¬ (0 : Nat) < 0 := ⟨rfl, by decide⟩

/-- C8 (amended): every Event either adapter constructs — in phase-1
classification, the CI-failure fetch or the pending-review fetch — has a
category from the closed eight-member enumeration and the adapter's fixed
source tag; its `createdAt` is copied from a raw response timestamp, hence
non-zero whenever every timestamp in the decoded responses is non-zero. -/
theorem event_wellformedness_amended :
    (∀ (gn : github.net) (since untilT : Nat) (evs : List report.Event),
      github.FetchEvents gn since untilT = .ok evs →
      ∀ ev ∈ evs, ev.category ∈ report.allCategories ∧ ev.source = "github"
        ∧ (github.positiveTimes gn → 0 < ev.createdAt))
    ∧ (∀ (ln : gitlab.net) (since untilT : Nat) (evs : List report.Event)
        (c : gitlab.Cache),
      gitlab.FetchEvents ln since untilT = .ok (evs, c) →
      ∀ ev ∈ evs, ev.category ∈ report.allCategories ∧ ev.source = "gitlab"
        ∧ (gitlab.positiveTimes ln → 0 < ev.createdAt)) := by
  constructor
  · intro gn since untilT evs hrun
    unfold github.FetchEvents at hrun
    cases hu : gn.userResp with
    | error err => rw [hu] at hrun; cases hrun
    | ok username =>
      rw [hu] at hrun
      cases hpg : github.pagesGo gn since untilT 10 1 [] [] with
      | error err => rw [hpg] at hrun; cases hrun
      | ok out =>
        rw [hpg] at hrun
        obtain ⟨evs1, repos⟩ := out
        have h1 : ∀ ev ∈ evs1, ev.category ∈ report.allCategories
            ∧ ev.source = "github" ∧ (github.positiveTimes gn → 0 < ev.createdAt) := by
          refine gh_pagesGo_inv gn since untilT _ ?_ 10 1 [] [] (evs1, repos)
            (by intro ev hev; cases hev) hpg
          intro page recs hresp r hr hs hu2 ev2 hev2
          obtain ⟨hc, hsrc⟩ := gh_parseEvent_wf r ev2 hev2
          refine ⟨hc, hsrc, fun hpos => ?_⟩
          rw [gh_parseEvent_createdAt r ev2 hev2]
          exact hpos.1 page recs hresp r hr
        have hci : ∀ ev ∈ github.ciList gn untilT repos,
            ev.category ∈ report.allCategories
            ∧ ev.source = "github" ∧ (github.positiveTimes gn → 0 < ev.createdAt) := by
          intro ev hev
          obtain ⟨hcat, hsrc, rn, runs, run, hresp, hrunm, hts⟩ :=
            gh_ciList_mem gn untilT repos ev hev
          refine ⟨by rw [hcat]; exact pipeline_mem_cats, hsrc, fun hpos => ?_⟩
          rw [hts]
          exact hpos.2.1 rn runs hresp run hrunm
        cases hrev : gn.reviewResp with
        | error err =>
          simp only [github.fetchCIFailures, github.fetchPendingReviews, hrev,
            Except.ok.injEq] at hrun
          subst hrun
          intro ev hev
          rcases List.mem_append.1 hev with h | h
          · rcases List.mem_append.1 h with h2 | h2
            · exact h1 ev h2
            · exact hci ev h2
          · cases h
        | ok items =>
          simp only [github.fetchCIFailures, github.fetchPendingReviews, hrev,
            Except.ok.injEq] at hrun
          subst hrun
          intro ev hev
          rcases List.mem_append.1 hev with h | h
          · rcases List.mem_append.1 h with h2 | h2
            · exact h1 ev h2
            · exact hci ev h2
          · simp only [List.mem_map] at h
            obtain ⟨it, hit, rfl⟩ := h
            refine ⟨pendingReview_mem_cats, rfl, fun hpos => ?_⟩
            exact hpos.2.2 items hrev it hit
  · intro ln since untilT evs c hrun
    unfold gitlab.FetchEvents at hrun
    cases hu : ln.userResp with
    | error err => rw [hu] at hrun; cases hrun
    | ok u =>
      rw [hu] at hrun
      cases hpg : gitlab.pagesGo ln since 100 1
          { events := [], cache := [], projectIDs := [], requests := 0 } with
      | error err => rw [hpg] at hrun; cases hrun
      | ok st =>
        rw [hpg] at hrun
        have h1 : ∀ ev ∈ st.events, ev.category ∈ report.allCategories
            ∧ ev.source = "gitlab" ∧ (gitlab.positiveTimes ln → 0 < ev.createdAt) := by
          refine gl_pagesGo_inv ln since _ ?_ 100 1 _ st
            (by intro ev hev; cases hev) hpg
          intro page recs hresp r hr hs proj ev2 hev2
          obtain ⟨hc, hsrc, hts⟩ := gl_parseEvent_wf r proj ev2 hev2
          refine ⟨hc, hsrc, fun hpos => ?_⟩
          rw [hts]
          exact hpos.1 page recs hresp r hr
        have hci : ∀ ev ∈ gitlab.ciList ln u.id st.projectIDs st.cache,
            ev.category ∈ report.allCategories
            ∧ ev.source = "gitlab" ∧ (gitlab.positiveTimes ln → 0 < ev.createdAt) := by
          intro ev hev
          obtain ⟨hcat, hsrc, pid, pipelines, p, hresp, hpm, hts⟩ :=
            gl_ciList_mem ln u.id st.projectIDs st.cache ev hev
          refine ⟨by rw [hcat]; exact pipeline_mem_cats, hsrc, fun hpos => ?_⟩
          rw [hts]
          exact hpos.2.1 pid pipelines hresp p hpm
        cases hmr : ln.mrResp with
        | error err =>
          simp only [gitlab.fetchCIFailures, gitlab.fetchPendingReviews, hmr,
            Except.ok.injEq, Prod.mk.injEq] at hrun
          obtain ⟨hevs, -⟩ := hrun
          subst hevs
          intro ev hev
          rcases List.mem_append.1 hev with h | h
          · rcases List.mem_append.1 h with h2 | h2
            · exact h1 ev h2
            · exact hci ev h2
          · cases h
        | ok mrs =>
          simp only [gitlab.fetchCIFailures, gitlab.fetchPendingReviews, hmr,
            Except.ok.injEq, Prod.mk.injEq] at hrun
          obtain ⟨hevs, -⟩ := hrun
          subst hevs
          intro ev hev
          rcases List.mem_append.1 hev with h | h
          · rcases List.mem_append.1 h with h2 | h2
            · exact h1 ev h2
            · exact hci ev h2
          · obtain ⟨hcat, hsrc, mr, hmrm, hts⟩ :=
              gl_reviewLoop_mem ln mrs st.cache ev h
            refine ⟨by rw [hcat]; exact pendingReview_mem_cats, hsrc, fun hpos => ?_⟩
            rw [hts]
            exact hpos.2.2 mrs hmr mr hmrm

/-- C8 witness: on a concrete GitHub run exercising all three producers
(one push event, one failed workflow run, one pending review), every
returned event has an enumerated category, the "github" source tag, and a
positive timestamp. -/
theorem event_wellformedness_witness :
    ∀ ev ∈ [{ category := report.CategoryCommit, action := "pushed", title := "A"
              repo := "o/r", source := "github", createdAt := 7 : report.Event },
            { category := report.CategoryPipeline, action := "failed"
              title := "CI on main", repo := "o/r", source := "github"
              createdAt := 6 : report.Event },
            { category := report.CategoryPendingReview, action := "awaiting your review"
              title := "#5 R", repo := "o/r", source := "github"
              createdAt := 8 : report.Event }],
      ev.category ∈ report.allCategories ∧ ev.source = "github" ∧ 0 < ev.createdAt := by
  have h := event_wellformedness_amended.1
    { userResp := .ok "me"
      pageResp := fun p => if p = 1 then .ok
        [{ typ := "PushEvent", repoName := "o/r"
           payload := .push { commits := [{ message := "A" }] }, createdAt := 7 }]
        else .ok []
      ciResp := fun r => if r = "o/r" then .ok
        [{ name := "CI", headBranch := "main", createdAt := 6 }] else .error ()
      reviewResp := .ok
        [{ number := 5, title := "R"
           repositoryURL := "https://api.github.com/repos/o/r", createdAt := 8 }] }
    5 10
    [{ category := report.CategoryCommit, action := "pushed", title := "A"
       repo := "o/r", source := "github", createdAt := 7 },
     { category := report.CategoryPipeline, action := "failed"
       title := "CI on main", repo := "o/r", source := "github", createdAt := 6 },
     { category := report.CategoryPendingReview, action := "awaiting your review"
       title := "#5 R", repo := "o/r", source := "github", createdAt := 8 }]
    rfl
  have hpos : github.positiveTimes
      { userResp := .ok "me"
        pageResp := fun p => if p = 1 then .ok
          [{ typ := "PushEvent", repoName := "o/r"
             payload := .push { commits := [{ message := "A" }] }, createdAt := 7 }]
          else .ok []
        ciResp := fun r => if r = "o/r" then .ok
          [{ name := "CI", headBranch := "main", createdAt := 6 }] else .error ()
        reviewResp := .ok
          [{ number := 5, title := "R"
             repositoryURL := "https://api.github.com/repos/o/r", createdAt := 8 }] } := by
    refine ⟨?_, ?_, ?_⟩
    · intro page recs hresp r hr
      by_cases hp1 : page = 1
      · subst hp1
        simp at hresp
        subst hresp
        simp at hr
        subst hr
        decide
      · simp [hp1] at hresp
        subst hresp
        cases hr
    · intro repoName runs hresp run hrun
      by_cases hr1 : repoName = "o/r"
      · subst hr1
        simp at hresp
        subst hresp
        simp at hrun
        subst hrun
        decide
      · simp [hr1] at hresp
    · intro items hresp it hit
      simp at hresp
      subst hresp
      simp at hit
      subst hit
      decide
  intro ev hev
  obtain ⟨hc, hs, hp⟩ := h ev hev
  exact ⟨hc, hs, hp hpos⟩

/-- C2 counterexample: a GitLab response record with `CreatedAt` strictly
after the window end (11 > 10) is not excluded — the GitLab adapter returns
a primary event for it, because its record loop checks no upper bound (the
code delegates that to the request's `before` query parameter). -/
theorem windowEnd_exclusion_counterexample :
    gitlab.FetchEvents
      { userResp := .ok { id := 7 }
        pageResp := fun p => if p = 1 then .ok
          [{ createdAt := 11, projectID := 3
             pushData := some { commitCount := 2, commitTitle := "T", ref := "main" } }]
          else .ok []
        projResp := fun _ => .ok { pathWithNamespace := "g/p" }
        pipeResp := fun _ => .ok []
        mrResp := .ok [] } 5 10 =
      .ok ([{ category := report.CategoryCommit, action := "pushed", title := "T"
              repo := "g/p", source := "gitlab", createdAt := 11 }],
           [(3, { pathWithNamespace := "g/p" })])
    ∧ (10 : Nat) < 11 := ⟨rfl, by decide⟩

/-- C2 (amended): a raw primary-feed record with `CreatedAt` strictly after
the window end is excluded by the GitHub adapter, which keeps processing;
the GitLab adapter's loop performs no upper-bound check at all, so any such
record present in a response is processed like an in-window record. -/
theorem windowEnd_exclusion_amended :
    (∀ (gn : github.net) (since untilT fuel page : Nat)
        (evs : List report.Event) (repos : List String)
        (out : List report.Event × List String),
      (∀ ev ∈ evs, ev.createdAt ≤ untilT) →
      github.pagesGo gn since untilT fuel page evs repos = .ok out →
      ∀ ev ∈ out.1, ev.createdAt ≤ untilT)
    ∧ (∀ (ln : gitlab.net) (since : Nat) (e : gitlab.event)
        (rest : List gitlab.event) (st : gitlab.Phase1State)
        (proj : gitlab.project) (cache2 : gitlab.Cache) (k : Nat),
      ¬ e.createdAt < since →
      gitlab.resolveProject ln e.projectID st.cache = (.ok proj, cache2, k) →
      gitlab.processRecords ln since (e :: rest) st =
        gitlab.processRecords ln since rest
          { events := st.events ++ gitlab.parseEvent e proj
            cache := cache2
            projectIDs := gitlab.insertID st.projectIDs e.projectID
            requests := st.requests + k }) := by
  constructor
  · intro gn since untilT fuel page evs repos out hevs hrun
    refine gh_pagesGo_inv gn since untilT (fun ev => ev.createdAt ≤ untilT)
      ?_ fuel page evs repos out hevs hrun
    intro page2 recs hresp r _ _ hu ev hev
    rw [gh_parseEvent_createdAt r ev hev]
    omega
  · intro ln since e rest st proj cache2 k hsk hres
    simp [gitlab.processRecords, hsk, hres]

/-- C2 witness: on a concrete GitHub page holding a record after the window
end (11 > 10) followed by an in-window record, only the in-window event is
returned and it satisfies the bound; on the GitLab side, a concrete
after-window record is processed into an event. -/
theorem windowEnd_exclusion_witness :
    (∀ ev ∈ [{ category := report.CategoryCommit, action := "pushed", title := "in"
               repo := "o/r", source := "github", createdAt := 7 : report.Event }],
      ev.createdAt ≤ 10)
    ∧ gitlab.processRecords
        { userResp := .ok { id := 7 }, pageResp := fun _ => .ok []
          projResp := fun _ => .ok { pathWithNamespace := "g/p" }
          pipeResp := fun _ => .ok [], mrResp := .ok [] }
        5 [{ createdAt := 11, projectID := 3
             pushData := some { commitCount := 2, commitTitle := "T", ref := "main" } }]
        { events := [], cache := [], projectIDs := [], requests := 0 } =
      gitlab.processRecords
        { userResp := .ok { id := 7 }, pageResp := fun _ => .ok []
          projResp := fun _ => .ok { pathWithNamespace := "g/p" }
          pipeResp := fun _ => .ok [], mrResp := .ok [] }
        5 []
        { events := [] ++ gitlab.parseEvent
            { createdAt := 11, projectID := 3
              pushData := some { commitCount := 2, commitTitle := "T", ref := "main" } }
            { pathWithNamespace := "g/p" }
          cache := [(3, { pathWithNamespace := "g/p" })]
          projectIDs := gitlab.insertID [] 3
          requests := 0 + 1 } := by
  constructor
  · exact windowEnd_exclusion_amended.1
      { userResp := .ok "me"
        pageResp := fun p => if p = 1 then .ok
          [{ typ := "PushEvent", repoName := "o/r"
             payload := .push { commits := [{ message := "after" }] }, createdAt := 11 },
           { typ := "PushEvent", repoName := "o/r"
             payload := .push { commits := [{ message := "in" }] }, createdAt := 7 }]
          else .ok []
        ciResp := fun _ => .error ()
        reviewResp := .error () }
      5 10 10 1 [] []
      ([{ category := report.CategoryCommit, action := "pushed", title := "in"
          repo := "o/r", source := "github", createdAt := 7 }], ["o/r"])
      (by simp) rfl
  · exact windowEnd_exclusion_amended.2
      _ 5
      { createdAt := 11, projectID := 3
        pushData := some { commitCount := 2, commitTitle := "T", ref := "main" } }
      [] _ { pathWithNamespace := "g/p" } _ _ (by decide) rfl

/-- C6: a GitHub `PushEvent` record whose payload decodes to a commit list
of length 3 yields exactly 3 Commit-category Events, each titled with the
prefix of its commit message up to (excluding) the first newline, or the
whole message when it has none. -/
theorem github_push_three_commits (e : github.event) (p : github.pushPayload)
    (ht : e.typ = "PushEvent") (hp : e.payload = .push p)
    (h3 : p.commits.length = 3) :
    (github.parseEvent e).length = 3
    ∧ (∀ ev ∈ github.parseEvent e, ev.category = report.CategoryCommit)
    ∧ (github.parseEvent e).map (fun ev => ev.title)
        = p.commits.map (fun c => github.firstLine c.message)
    ∧ (∀ l₁ l₂ : List Char, '\n' ∉ l₁ →
        github.firstLine (String.mk (l₁ ++ '\n' :: l₂)) = String.mk l₁)
    ∧ (∀ l : List Char, '\n' ∉ l →
        github.firstLine (String.mk l) = String.mk l) := by
  cases e with
  | mk typ repoName payload createdAt =>
    subst ht; subst hp
    refine ⟨?_, ?_, ?_, firstLine_stop, firstLine_id⟩
    · show (p.commits.map _).length = 3
      simp [h3]
    · intro ev hev
      simp only [github.parseEvent, List.mem_map] at hev
      obtain ⟨c, _, rfl⟩ := hev
      rfl
    · show (p.commits.map _).map _ = _
      simp [List.map_map, Function.comp]

/-- C6 witness: a concrete 3-commit push record, including a multi-line
message, yields 3 Commit events titled by each message's first line. -/
theorem github_push_three_commits_witness :
    (github.parseEvent
        { typ := "PushEvent", repoName := "octo/repo"
          payload := .push { commits :=
            [{ message := "Fix bug\n\nDetails" }, { message := "B" }, { message := "C" }] }
          createdAt := 7 }).length = 3
    ∧ (github.parseEvent
        { typ := "PushEvent", repoName := "octo/repo"
          payload := .push { commits :=
            [{ message := "Fix bug\n\nDetails" }, { message := "B" }, { message := "C" }] }
          createdAt := 7 }).map (fun ev => ev.title) = ["Fix bug", "B", "C"] := by
  have h := github_push_three_commits
    { typ := "PushEvent", repoName := "octo/repo"
      payload := .push { commits :=
        [{ message := "Fix bug\n\nDetails" }, { message := "B" }, { message := "C" }] }
      createdAt := 7 }
    { commits := [{ message := "Fix bug\n\nDetails" }, { message := "B" }, { message := "C" }] }
    rfl rfl (by decide)
  refine ⟨h.1, ?_⟩
  rw [h.2.2.1]
  decide

/-- C7: a GitHub `PullRequestEvent` record yields exactly one PR-category
Event; its action is "merged" when the raw action is "closed" and the
merged flag is set, and the raw action unchanged otherwise. -/
theorem github_pr_merged_action (e : github.event) (p : github.prPayload)
    (ht : e.typ = "PullRequestEvent") (hp : e.payload = .pr p) :
    ∃ ev, github.parseEvent e = [ev]
    ∧ ev.category = report.CategoryPR
    ∧ (p.action = "closed" → p.pullRequest.merged = true → ev.action = "merged")
    ∧ (p.action ≠ "closed" ∨ p.pullRequest.merged = false → ev.action = p.action) := by
  cases e with
  | mk typ repoName payload createdAt =>
    subst ht; subst hp
    refine ⟨_, rfl, rfl, ?_, ?_⟩
    · intro hc hm
      show (if _ then "merged" else p.action) = "merged"
      simp [hc, hm]
    · intro hcm
      show (if _ then "merged" else p.action) = p.action
      rcases hcm with hc | hm
      · simp [hc]
      · simp [hm]

/-- C7 witness: a concrete closed-and-merged PR record yields one PR event
with action "merged", and a concrete reopened PR record keeps its action. -/
theorem github_pr_merged_action_witness :
    (∃ ev, github.parseEvent
      { typ := "PullRequestEvent", repoName := "octo/repo"
        payload := .pr { action := "closed"
                         pullRequest := { number := 42, title := "T", merged := true } }
        createdAt := 8 } = [ev]
      ∧ ev.category = report.CategoryPR ∧ ev.action = "merged")
    ∧ (∃ ev, github.parseEvent
      { typ := "PullRequestEvent", repoName := "octo/repo"
        payload := .pr { action := "reopened"
                         pullRequest := { number := 1, title := "U", merged := false } }
        createdAt := 9 } = [ev]
      ∧ ev.action = "reopened") := by
  constructor
  · obtain ⟨ev, heq, hcat, hcl, _⟩ := github_pr_merged_action
      { typ := "PullRequestEvent", repoName := "octo/repo"
        payload := .pr { action := "closed"
                         pullRequest := { number := 42, title := "T", merged := true } }
        createdAt := 8 }
      { action := "closed", pullRequest := { number := 42, title := "T", merged := true } }
      rfl rfl
    exact ⟨ev, heq, hcat, hcl rfl rfl⟩
  · obtain ⟨ev, heq, _, _, hkeep⟩ := github_pr_merged_action
      { typ := "PullRequestEvent", repoName := "octo/repo"
        payload := .pr { action := "reopened"
                         pullRequest := { number := 1, title := "U", merged := false } }
        createdAt := 9 }
      { action := "reopened", pullRequest := { number := 1, title := "U", merged := false } }
      rfl rfl
    exact ⟨ev, heq, hkeep (Or.inl (by decide))⟩

/-- C10: a GitLab record carrying push-data yields exactly one
Commit-category Event regardless of its commit count, titled with the
push's commit title, or with the fallback "count commit(s) to ref" when the
commit title is empty. -/
theorem gitlab_push_single_event (e : gitlab.event) (proj : gitlab.project)
    (pd : gitlab.pushData) (hpd : e.pushData = some pd) :
    ∃ ev, gitlab.parseEvent e proj = [ev]
    ∧ ev.category = report.CategoryCommit
    ∧ ev.title = (if pd.commitTitle = "" then
        toString pd.commitCount ++ " commit(s) to " ++ pd.ref
      else pd.commitTitle)
    ∧ ev.createdAt = e.createdAt := by
  have hred : gitlab.parseEvent e proj =
      [{ category := report.CategoryCommit
         action := "pushed"
         title := if pd.commitTitle = "" then
             toString pd.commitCount ++ " commit(s) to " ++ pd.ref
           else pd.commitTitle
         repo := proj.pathWithNamespace
         source := "gitlab"
         createdAt := e.createdAt }] := by
    simp only [gitlab.parseEvent, hpd]
  exact ⟨_, hred, rfl, rfl, rfl⟩

/-- C10 witness: two concrete push records — one with an empty commit title
(fallback title), one with commit count 5 but a set title — each yield a
single Commit event. -/
theorem gitlab_push_single_event_witness :
    (∃ ev, gitlab.parseEvent
      { createdAt := 11, projectID := 3
        pushData := some { commitCount := 2, commitTitle := "", ref := "main" } }
      { pathWithNamespace := "g/p" } = [ev]
      ∧ ev.category = report.CategoryCommit ∧ ev.title = "2 commit(s) to main")
    ∧ (∃ ev, gitlab.parseEvent
      { createdAt := 12, projectID := 3
        pushData := some { commitCount := 5, commitTitle := "Top", ref := "dev" } }
      { pathWithNamespace := "g/p" } = [ev]
      ∧ ev.title = "Top") := by
  constructor
  · obtain ⟨ev, heq, hcat, htitle, _⟩ := gitlab_push_single_event
      { createdAt := 11, projectID := 3
        pushData := some { commitCount := 2, commitTitle := "", ref := "main" } }
      { pathWithNamespace := "g/p" }
      { commitCount := 2, commitTitle := "", ref := "main" } rfl
    refine ⟨ev, heq, hcat, ?_⟩
    rw [htitle]; decide
  · obtain ⟨ev, heq, _, htitle, _⟩ := gitlab_push_single_event
      { createdAt := 12, projectID := 3
        pushData := some { commitCount := 5, commitTitle := "Top", ref := "dev" } }
      { pathWithNamespace := "g/p" }
      { commitCount := 5, commitTitle := "Top", ref := "dev" } rfl
    refine ⟨ev, heq, ?_⟩
    rw [htitle]; decide

/-- C3: when exactly one configured adapter fails and the other succeeds,
the aggregator returns exactly the successful adapter's events, records
exactly one warning tagged with the failed platform, and itself returns
without error. -/
theorem aggregator_partial_failure (evs : List report.Event) :
    cmd.run (some (.error ())) (some (.ok evs)) = .ok (evs, ["github"])
    ∧ cmd.run (some (.ok evs)) (some (.error ())) = .ok (evs, ["gitlab"]) := by
  constructor
  · rfl
  · show Except.ok (evs ++ [], [] ++ ["gitlab"]) = _
    simp
